import Mathlib

/-!
Verification of the renterd parallel slab download engine and price-table
cache, shallowly embedded from the Go sources (worker download manager,
slab download, per-host downloader, `slabsForDownload`, and
`worker/pricetable.go`).

Machine integers are modelled as `Nat`/`Int` with explicit wrap-around
(`% 2^32`, `% 2^64`) where the Go code performs fixed-width arithmetic.
Go panics (out-of-range index, 32-bit cast overflow, close of a closed
channel) are modelled as `Option.none` results.
-/

namespace Renterd

/-- Sector payloads are byte strings; `[]` models Go's nil/empty `[]byte`. -/
abbrev Bytes := List Nat

/-- Host public keys, abstracted to an opaque identifier. -/
abbrev HostKey := Nat

/-- Modulus of Go's `uint64` arithmetic. -/
def U64 : Nat := 2 ^ 64

/-- Modulus of Go's `uint32` arithmetic. -/
def U32 : Nat := 2 ^ 32

/-- Largest value representable in a `uint32` (`math.MaxUint32`). -/
def UINT32_MAX : Nat := U32 - 1

/-- Go `uint64` increment `x++` with wrap-around. -/
def inc64 (x : Nat) : Nat := (x + 1) % U64

/-- Go `uint64` decrement `x--` with wrap-around. -/
def dec64 (x : Nat) : Nat := (x + (U64 - 1)) % U64

/-- Go `uint32` addition with wrap-around. -/
def u32add (a b : Nat) : Nat := (a + b) % U32

/-- Go `uint32` subtraction with wrap-around. -/
def u32sub (a b : Nat) : Nat := (a + (U32 - b % U32)) % U32

/-- A slab slice as used by `slabsForDownload`: the underlying slab is
never inspected by that function, so it is abstracted to an opaque
identifier `slabId`; `offset` and `length` are the `uint32` fields of
`object.SlabSlice`. -/
structure SlabSlice where
  slabId : Nat
  offset : Nat
  length : Nat
deriving DecidableEq, Repr

/-- Sum of the `Length` fields of a slice list. -/
def sumLen (l : List SlabSlice) : Nat := (l.map SlabSlice.length).sum

/-- The `cast32` helper of `slabsForDownload`: a `uint64` to `uint32`
conversion that panics (modelled as `none`) when the value exceeds
`math.MaxUint32`. -/
def cast32 (x : Nat) : Option Nat := if x > UINT32_MAX then none else some x

/-- First loop of `slabsForDownload`: scan for the slice containing
`offset`. `some (suffix, rem)` models the `break` at that slice with
`slabs = slabs[i:]` and the remaining intra-slab offset; `none` models
falling off the end of the loop without a `break`. -/
def firstLoop : List SlabSlice → Nat → Option (List SlabSlice × Nat)
  | [], _ => none
  | s :: rest, off =>
    if off ≤ s.length then some (s :: rest, off) else firstLoop rest (off - s.length)

/-- Result of the first loop including the no-`break` fall-through, in
which case the Go code leaves `slabs` untouched and `firstOffset` has
been reduced by every slice length. -/
def afterFirstLoop (slabs : List SlabSlice) (offset : Nat) : List SlabSlice × Nat :=
  match firstLoop slabs offset with
  | some p => p
  | none => (slabs, offset - sumLen slabs)

/-- Second loop of `slabsForDownload`: scan for the slice in which the
requested `length` ends. `some (prefix, rem)` models the `break` with
`slabs = slabs[:i+1]` and the residual last length; `none` models the
no-`break` fall-through. -/
def secondLoop : List SlabSlice → Nat → Option (List SlabSlice × Nat)
  | [], _ => none
  | s :: rest, rem =>
    if rem ≤ s.length then some ([s], rem)
    else
      match secondLoop rest (rem - s.length) with
      | some (kept, ll) => some (s :: kept, ll)
      | none => none

/-- Result of the second loop including the no-`break` fall-through. -/
def afterSecondLoop (slabs : List SlabSlice) (length : Nat) : List SlabSlice × Nat :=
  match secondLoop slabs length with
  | some p => p
  | none => (slabs, length - sumLen slabs)

/-- Mutation `slabs[0].Offset += fo; slabs[0].Length -= fo` on the head
of the list, in `uint32` arithmetic. -/
def advanceHead (fo : Nat) : List SlabSlice → List SlabSlice
  | [] => []
  | s :: rest => { s with offset := u32add s.offset fo, length := u32sub s.length fo } :: rest

/-- Mutation `slabs[len(slabs)-1].Length = ll` on the last element. -/
def setLastLength : List SlabSlice → Nat → List SlabSlice
  | [], _ => []
  | [s], ll => [{ s with length := ll }]
  | s :: rest, ll => s :: setLastLength rest ll

/-- The `slabsForDownload` function: trims a slice list to the window
covering `[offset, offset+length)`. `none` models a Go panic, either
from `cast32` or from indexing `slabs[0]` on an empty list. -/
def slabsForDownload (slabs : List SlabSlice) (offset length : Nat) : Option (List SlabSlice) :=
  match (afterFirstLoop slabs offset).1, cast32 (afterFirstLoop slabs offset).2 with
  | [], _ => none
  | _ :: _, none => none
  | s0 :: rest, some fo =>
    match cast32 (afterSecondLoop (advanceHead fo (s0 :: rest)) length).2 with
    | none => none
    | some ll => some (setLastLength (afterSecondLoop (advanceHead fo (s0 :: rest)) length).1 ll)

theorem sumLen_nil : sumLen [] = 0 := rfl

theorem sumLen_cons (s : SlabSlice) (l : List SlabSlice) :
    sumLen (s :: l) = s.length + sumLen l := by
  simp [sumLen]

theorem sumLen_append (l₁ l₂ : List SlabSlice) :
    sumLen (l₁ ++ l₂) = sumLen l₁ + sumLen l₂ := by
  simp [sumLen]

theorem cast32_of_le {x : Nat} (h : x ≤ UINT32_MAX) : cast32 x = some x := by
  simp [cast32, Nat.not_lt_of_le h]

theorem u32sub_of_le {a b : Nat} (hba : b ≤ a) (ha : a ≤ UINT32_MAX) :
    u32sub a b = a - b := by
  have hb : b < U32 := by
    have : U32 = UINT32_MAX + 1 := by simp [UINT32_MAX, U32]
    omega
  have hmod : b % U32 = b := Nat.mod_eq_of_lt hb
  have h1 : a + (U32 - b % U32) = (a - b) + U32 := by omega
  have h2 : a - b < U32 := by
    have : U32 = UINT32_MAX + 1 := by simp [UINT32_MAX, U32]
    omega
  simp [u32sub, h1, Nat.add_mod_right, Nat.mod_eq_of_lt h2]

theorem firstLoop_break (l : List SlabSlice) (off : Nat) (hne : l ≠ [])
    (hle : off ≤ sumLen l) :
    ∃ pre s rest fo,
      firstLoop l off = some (s :: rest, fo) ∧
      l = pre ++ s :: rest ∧ fo + sumLen pre = off ∧ fo ≤ s.length := by
  induction l generalizing off with
  | nil => exact absurd rfl hne
  | cons a t ih =>
    by_cases h : off ≤ a.length
    · exact ⟨[], a, t, off, by simp [firstLoop, h], rfl, by simp [sumLen], h⟩
    · have hlt : a.length < off := Nat.lt_of_not_le h
      have htne : t ≠ [] := by
        intro ht
        subst ht
        simp [sumLen_cons, sumLen_nil] at hle
        omega
      have hle' : off - a.length ≤ sumLen t := by
        rw [sumLen_cons] at hle
        omega
      obtain ⟨pre, s, rest, fo, hfl, hsplit, hoff, hfo⟩ := ih (off - a.length) htne hle'
      refine ⟨a :: pre, s, rest, fo, ?_, by simp [hsplit], ?_, hfo⟩
      · simp [firstLoop, h, hfl]
      · rw [sumLen_cons]
        omega

theorem secondLoop_break (l : List SlabSlice) (rem : Nat) (hne : l ≠ [])
    (hle : rem ≤ sumLen l) :
    ∃ kept last post ll,
      secondLoop l rem = some (kept ++ [last], ll) ∧
      l = kept ++ last :: post ∧ sumLen kept + ll = rem ∧ ll ≤ last.length := by
  induction l generalizing rem with
  | nil => exact absurd rfl hne
  | cons a t ih =>
    by_cases h : rem ≤ a.length
    · exact ⟨[], a, t, rem, by simp [secondLoop, h], rfl, by simp [sumLen], h⟩
    · have hlt : a.length < rem := Nat.lt_of_not_le h
      have htne : t ≠ [] := by
        intro ht
        subst ht
        simp [sumLen_cons, sumLen_nil] at hle
        omega
      have hle' : rem - a.length ≤ sumLen t := by
        rw [sumLen_cons] at hle
        omega
      obtain ⟨kept, last, post, ll, hsl, hsplit, hsum, hll⟩ := ih (rem - a.length) htne hle'
      refine ⟨a :: kept, last, post, ll, ?_, by simp [hsplit], ?_, hll⟩
      · simp [secondLoop, h, hsl]
      · rw [sumLen_cons]
        omega

theorem setLastLength_append (xs : List SlabSlice) (y : SlabSlice) (ll : Nat) :
    setLastLength (xs ++ [y]) ll = xs ++ [{ y with length := ll }] := by
  induction xs with
  | nil => rfl
  | cons a t ih =>
    cases t with
    | nil => simp [setLastLength] at ih ⊢
    | cons b u => simp [setLastLength] at ih ⊢; exact ih

theorem advanceHead_ne_nil (fo : Nat) (l : List SlabSlice) (h : l ≠ []) :
    advanceHead fo l ≠ [] := by
  cases l with
  | nil => exact absurd rfl h
  | cons a t => simp [advanceHead]

theorem sumLen_advanceHead (fo : Nat) (s : SlabSlice) (rest : List SlabSlice)
    (hfo : fo ≤ s.length) (hs : s.length ≤ UINT32_MAX) :
    sumLen (advanceHead fo (s :: rest)) = sumLen (s :: rest) - fo := by
  simp [advanceHead, sumLen_cons, u32sub_of_le hfo hs]
  omega

/-- Helper equality used to rewrite the window decomposition. -/
theorem slabsForDownload_eq (slabs : List SlabSlice) (offset length : Nat)
    (s0 : SlabSlice) (rest : List SlabSlice) (fo : Nat)
    (h1 : afterFirstLoop slabs offset = (s0 :: rest, fo))
    (hfo : fo ≤ UINT32_MAX)
    (kept : List SlabSlice) (ll : Nat)
    (h2 : afterSecondLoop (advanceHead fo (s0 :: rest)) length = (kept, ll))
    (hll : ll ≤ UINT32_MAX) :
    slabsForDownload slabs offset length = some (setLastLength kept ll) := by
  simp [slabsForDownload, h1, h2, cast32_of_le hfo, cast32_of_le hll]

/-- C2 (amended): for every nonempty slab slice list with 32-bit `Length`
fields and every byte range `[offset, offset+length)` contained in it,
`slabsForDownload` returns (without panicking) a contiguous sub-window
`win` of the input whose first slice has its `Offset` advanced (modulo
`2^32`) by the intra-slab offset `fo` and its `Length` reduced by `fo`,
whose last slice has its `Length` truncated, and whose `Length` fields
sum to exactly `length`. -/
theorem slabsForDownload_window (slabs : List SlabSlice) (offset length : Nat)
    (hne : slabs ≠ [])
    (hwf : ∀ s ∈ slabs, s.length ≤ UINT32_MAX)
    (hcont : offset + length ≤ sumLen slabs) :
    ∃ pre win post fo ll,
      slabs = pre ++ win ++ post ∧
      win ≠ [] ∧
      fo + sumLen pre = offset ∧
      slabsForDownload slabs offset length = some (setLastLength (advanceHead fo win) ll) ∧
      sumLen (setLastLength (advanceHead fo win) ll) = length := by
  obtain ⟨pre, s0, rest, fo, hFL, hsplit, hoff, hfo⟩ :=
    firstLoop_break slabs offset hne (le_trans (Nat.le_add_right _ _) hcont)
  have hs0 : s0.length ≤ UINT32_MAX := hwf s0 (by rw [hsplit]; simp)
  have hafl : afterFirstLoop slabs offset = (s0 :: rest, fo) := by
    simp [afterFirstLoop, hFL]
  have hfo32 : fo ≤ UINT32_MAX := le_trans hfo hs0
  have hsum2 : sumLen (advanceHead fo (s0 :: rest)) = sumLen (s0 :: rest) - fo :=
    sumLen_advanceHead fo s0 rest hfo hs0
  have hsumsplit : sumLen slabs = sumLen pre + sumLen (s0 :: rest) := by
    rw [hsplit, sumLen_append]
  have hB : sumLen (s0 :: rest) = s0.length + sumLen rest := sumLen_cons s0 rest
  have hlen2 : length ≤ sumLen (advanceHead fo (s0 :: rest)) := by
    rw [hsum2]
    omega
  obtain ⟨kept, last, post2, ll, hSL, hsplit2, hsum, hll⟩ :=
    secondLoop_break (advanceHead fo (s0 :: rest)) length
      (advanceHead_ne_nil _ _ (by simp)) hlen2
  have hasl : afterSecondLoop (advanceHead fo (s0 :: rest)) length = (kept ++ [last], ll) := by
    simp [afterSecondLoop, hSL]
  have hwf2 : ∀ x ∈ advanceHead fo (s0 :: rest), x.length ≤ UINT32_MAX := by
    intro x hx
    simp only [advanceHead, List.mem_cons] at hx
    rcases hx with hx | hx
    · subst hx
      simp only [u32sub_of_le hfo hs0]
      omega
    · exact hwf x (by rw [hsplit]; simp [hx])
  have hll32 : ll ≤ UINT32_MAX := by
    refine le_trans hll (hwf2 last ?_)
    rw [hsplit2]
    simp
  have heq : slabsForDownload slabs offset length = some (setLastLength (kept ++ [last]) ll) :=
    slabsForDownload_eq slabs offset length s0 rest fo hafl hfo32 (kept ++ [last]) ll hasl hll32
  cases kept with
  | nil =>
    have hsplit2' :
        ({ s0 with offset := u32add s0.offset fo, length := u32sub s0.length fo } : SlabSlice)
          :: rest = last :: post2 := by
      simpa [advanceHead] using hsplit2
    simp only [List.cons.injEq] at hsplit2'
    obtain ⟨h1, h2⟩ := hsplit2'
    refine ⟨pre, [s0], rest, fo, ll, by rw [hsplit]; simp, by simp, hoff, ?_, ?_⟩
    · rw [heq]
      simp [advanceHead, h1]
    · rw [sumLen_nil] at hsum
      simp [advanceHead, setLastLength, sumLen_cons, sumLen_nil]
      omega
  | cons k0 kept' =>
    have hsplit2' :
        ({ s0 with offset := u32add s0.offset fo, length := u32sub s0.length fo } : SlabSlice)
          :: rest = k0 :: (kept' ++ last :: post2) := by
      simpa [advanceHead] using hsplit2
    simp only [List.cons.injEq] at hsplit2'
    obtain ⟨h1, h2⟩ := hsplit2'
    have hwin : advanceHead fo (s0 :: (kept' ++ [last])) = (k0 :: kept') ++ [last] := by
      simp [advanceHead, h1]
    refine ⟨pre, s0 :: (kept' ++ [last]), post2, fo, ll, ?_, by simp, hoff, ?_, ?_⟩
    · rw [hsplit, h2]
      simp
    · rw [heq, hwin]
    · rw [hwin, setLastLength_append, sumLen_append, sumLen_cons] at *
      simp only [sumLen_cons, sumLen_nil] at hsum ⊢
      omega

/-- C2 counterexample: with a first slice whose `Offset` is `MaxUint32`,
the computed first-slice offset `MaxUint32 + 5` overflows 32 bits, yet
`slabsForDownload` does not panic: the `uint32` addition wraps silently
to `4`, so the claimed panic-on-overflow and the claimed exact `Offset`
advance both fail; and on an empty input list the function panics
(index out of range) although nothing overflowed. -/
theorem slabsForDownload_overflow_counterexample :
    slabsForDownload [⟨0, UINT32_MAX, 10⟩] 5 5 = some [⟨0, 4, 5⟩] ∧
    UINT32_MAX < UINT32_MAX + 5 ∧
    (4 : Nat) ≠ UINT32_MAX + 5 ∧
    slabsForDownload [] 0 0 = none := by
  refine ⟨by decide, by decide, ?_, by decide⟩
  have : 4 < UINT32_MAX + 5 := by decide
  omega

/-- C2 witness: the window theorem applied to two 10-byte slices with the
range `[5, 15)`. -/
theorem slabsForDownload_window_witness :
    ([⟨0, 0, 10⟩, ⟨1, 0, 10⟩] : List SlabSlice) ≠ [] ∧
    (∀ s ∈ ([⟨0, 0, 10⟩, ⟨1, 0, 10⟩] : List SlabSlice), s.length ≤ UINT32_MAX) ∧
    5 + 10 ≤ sumLen [⟨0, 0, 10⟩, ⟨1, 0, 10⟩] ∧
    (∃ pre win post fo ll,
      ([⟨0, 0, 10⟩, ⟨1, 0, 10⟩] : List SlabSlice) = pre ++ win ++ post ∧
      win ≠ [] ∧
      fo + sumLen pre = 5 ∧
      slabsForDownload [⟨0, 0, 10⟩, ⟨1, 0, 10⟩] 5 10 =
        some (setLastLength (advanceHead fo win) ll) ∧
      sumLen (setLastLength (advanceHead fo win) ll) = 10) :=
  ⟨by decide, by decide, by decide,
    slabsForDownload_window _ 5 10 (by decide) (by decide) (by decide)⟩

/-- The `len(slabs) == 0` early-return guard of `DownloadObject`: the
download returns immediately with success iff the computed slab list is
empty (a panic in `slabsForDownload` is not an early success). -/
def downloadObjectReturnsEarly (slabs : List SlabSlice) (offset length : Nat) : Bool :=
  match slabsForDownload slabs offset length with
  | some l => l.isEmpty
  | none => false

/-- C8 counterexample: with one 100-byte slab and `length = 0` the
computed slab list is a single zero-length slice, not the empty list, so
`DownloadObject` does not take its early return. -/
theorem downloadObject_zero_length_counterexample :
    slabsForDownload [⟨0, 0, 100⟩] 0 0 = some [⟨0, 0, 0⟩] ∧
    ([⟨0, 0, 0⟩] : List SlabSlice) ≠ ([] : List SlabSlice) ∧
    downloadObjectReturnsEarly [⟨0, 0, 100⟩] 0 0 = false := by
  refine ⟨by decide, by decide, by decide⟩

/-- C8 (amended): for `length = 0` on a nonempty slab list whose total
length covers `offset`, `slabsForDownload` returns a single slice with
`Length = 0`; the list is nonempty, so `DownloadObject` does not return
early and dispatches a zero-length slab download. -/
theorem slabsForDownload_zero_length (slabs : List SlabSlice) (offset : Nat)
    (hne : slabs ≠ [])
    (hwf : ∀ s ∈ slabs, s.length ≤ UINT32_MAX)
    (hoff : offset ≤ sumLen slabs) :
    ∃ s : SlabSlice, slabsForDownload slabs offset 0 = some [s] ∧ s.length = 0 ∧
      downloadObjectReturnsEarly slabs offset 0 = false := by
  obtain ⟨pre, s0, rest, fo, hFL, hsplit, hoffs, hfo⟩ := firstLoop_break slabs offset hne hoff
  have hs0 : s0.length ≤ UINT32_MAX := hwf s0 (by rw [hsplit]; simp)
  have hafl : afterFirstLoop slabs offset = (s0 :: rest, fo) := by
    simp [afterFirstLoop, hFL]
  have hfo32 : fo ≤ UINT32_MAX := le_trans hfo hs0
  have hSL : secondLoop (advanceHead fo (s0 :: rest)) 0 =
      some ([{ s0 with offset := u32add s0.offset fo, length := u32sub s0.length fo }], 0) := by
    simp [advanceHead, secondLoop]
  have hasl : afterSecondLoop (advanceHead fo (s0 :: rest)) 0 =
      ([{ s0 with offset := u32add s0.offset fo, length := u32sub s0.length fo }], 0) := by
    simp [afterSecondLoop, hSL]
  have heq := slabsForDownload_eq slabs offset 0 s0 rest fo hafl hfo32 _ 0 hasl (by decide)
  refine ⟨{ s0 with offset := u32add s0.offset fo, length := 0 }, ?_, rfl, ?_⟩
  · rw [heq]
    rfl
  · rw [downloadObjectReturnsEarly, heq]
    rfl

/-- C8 amended-claim witness: one 10-byte slab, `offset = 3`, `length = 0`. -/
theorem slabsForDownload_zero_length_witness :
    ([⟨0, 0, 10⟩] : List SlabSlice) ≠ [] ∧
    (∀ s ∈ ([⟨0, 0, 10⟩] : List SlabSlice), s.length ≤ UINT32_MAX) ∧
    3 ≤ sumLen [⟨0, 0, 10⟩] ∧
    (∃ s : SlabSlice, slabsForDownload [⟨0, 0, 10⟩] 3 0 = some [s] ∧ s.length = 0 ∧
      downloadObjectReturnsEarly [⟨0, 0, 10⟩] 3 0 = false) :=
  ⟨by decide, by decide, by decide,
    slabsForDownload_zero_length _ 3 (by decide) (by decide) (by decide)⟩

/-- A host price table, abstracted to an identifier plus its `Validity`
duration (in seconds). -/
structure HostPriceTable where
  uid : Nat
  validity : Int
deriving DecidableEq, Repr

/-- Leeway constant from `worker/pricetable.go` (30 seconds); its doc
comment says it is "the number of time before the actual expiry of a
price table when we start considering it invalid". -/
def priceTableValidityLeeway : Int := 30

/-- The per-host cache entry `priceTable` of `worker/pricetable.go`:
the cached table (nil when never fetched), its expiry instant, and
whether an update is in flight (`ongoingUpdate != nil`). -/
structure priceTable where
  pt : Option HostPriceTable
  expiry : Int
  ongoingUpdate : Bool
deriving DecidableEq, Repr

/-- The lookup-or-create method `priceTables.priceTable`: returns the
entry for the host, creating a fresh one (nil table) when absent. -/
def priceTablesLookup (cache : List (HostKey × priceTable)) (hk : HostKey) : priceTable :=
  match cache.find? (fun p => p.1 == hk) with
  | some p => p.2
  | none => { pt := none, expiry := 0, ongoingUpdate := false }

/-- The `priceTables.PriceTable` method: the cached table for the host
and whether `time.Now().Before(pt.expiry.Add(priceTableValidityLeeway))`,
i.e. `now < expiry + leeway` as written in the source. -/
def PriceTable (cache : List (HostKey × priceTable)) (hk : HostKey) (now : Int) :
    Option HostPriceTable × Bool :=
  match (priceTablesLookup cache hk).pt with
  | none => (none, false)
  | some t =>
    (some t, decide (now < (priceTablesLookup cache hk).expiry + priceTableValidityLeeway))

/-- Modelled from the spec: the validity condition the spec and the
constant's own doc comment describe, `now < expiry - leeway` (the entry
turns invalid 30 seconds before its actual expiry). -/
def validPerSpec (now expiry : Int) : Prop := now < expiry - priceTableValidityLeeway

instance (now expiry : Int) : Decidable (validPerSpec now expiry) := by
  unfold validPerSpec
  infer_instance

/-- C4: at `now = expiry` (table already expired) the code still reports
the table valid, because line 55 of `worker/pricetable.go` adds the
leeway to the expiry instead of subtracting it; the spec condition marks
the same instant invalid. The never-stored case does return invalid. -/
theorem priceTable_validity_bug :
    (PriceTable [(0, { pt := some ⟨1, 60⟩, expiry := 100, ongoingUpdate := false })] 0 100).2 =
      true ∧
    ¬ validPerSpec 100 100 ∧
    PriceTable [] 0 100 = (none, false) := by
  refine ⟨by decide, by decide, by decide⟩

/-- Errors returned by the price-table transport/payment, abstracted. -/
inductive UpdateErr where
  | failure : Nat → UpdateErr
deriving DecidableEq, Repr

/-- The tail of `priceTables.Update` after the transport call returns
(lines 99-112): on success the entry stores the new table and
`expiry = now + pt.Validity`; on failure the cached fields are left
untouched; in both cases the in-flight marker is cleared and the
transport's result is returned to the caller. -/
def applyUpdateResult (e : priceTable) (now : Int) (res : Except UpdateErr HostPriceTable) :
    priceTable × Except UpdateErr HostPriceTable :=
  match res with
  | .ok hpt =>
    ({ e with pt := some hpt, expiry := now + hpt.validity, ongoingUpdate := false }, .ok hpt)
  | .error err => ({ e with ongoingUpdate := false }, .error err)

/-- C5: error atomicity of the cache update. A successful refresh stores
the new table with `expiry = now + Validity`; a failed refresh leaves
both cached fields exactly as they were. -/
theorem update_cache_atomicity (e : priceTable) (now : Int) :
    (∀ hpt, (applyUpdateResult e now (.ok hpt)).1.pt = some hpt ∧
            (applyUpdateResult e now (.ok hpt)).1.expiry = now + hpt.validity) ∧
    (∀ err, (applyUpdateResult e now (.error err)).1.pt = e.pt ∧
            (applyUpdateResult e now (.error err)).1.expiry = e.expiry) :=
  ⟨fun _ => ⟨rfl, rfl⟩, fun _ => ⟨rfl, rfl⟩⟩

/-- Modelled from the spec: classified sector-download errors. The four
host-blameless kinds correspond to the classifiers
`isBalanceInsufficient`, `isPriceTableExpired`, `isPriceTableNotFound`
and `isSectorNotFound`, whose matching logic lives outside this excerpt;
every other error is host-blameworthy. -/
inductive DownloadErr where
  | balanceInsufficient
  | priceTableExpired
  | priceTableNotFound
  | sectorNotFound
  | other : Nat → DownloadErr
deriving DecidableEq, Repr

/-- Classifier for the insufficient-balance error. -/
def isBalanceInsufficient : DownloadErr → Bool
  | .balanceInsufficient => true
  | _ => false

/-- Classifier for the expired-price-table error. -/
def isPriceTableExpired : DownloadErr → Bool
  | .priceTableExpired => true
  | _ => false

/-- Classifier for the price-table-not-found error. -/
def isPriceTableNotFound : DownloadErr → Bool
  | .priceTableNotFound => true
  | _ => false

/-- Classifier for the sector-not-found error. -/
def isSectorNotFound : DownloadErr → Bool
  | .sectorNotFound => true
  | _ => false

/-- One entry of a `HostErrorSet`. -/
structure HostError where
  hk : HostKey
  err : DownloadErr
deriving DecidableEq, Repr

/-- Downloader state read and written by `downloader.trackFailure`: the
`consecutiveFailures` counter and the samples tracked into
`statsSectorDownloadEstimateInMS` (`dataPoints.Track` appends a sample;
the dataPoints implementation is outside this excerpt, so the estimator
is modelled as the list of tracked samples). -/
structure downloaderState where
  consecutiveFailures : Nat
  estimateSamples : List Nat
deriving DecidableEq, Repr

/-- `time.Hour.Milliseconds()`. -/
def hourInMS : Nat := 3600000

/-- `downloader.trackFailure`. -/
def trackFailure (d : downloaderState) (err : Option DownloadErr) : downloaderState :=
  match err with
  | none => { d with consecutiveFailures := 0 }
  | some e =>
    if isBalanceInsufficient e || isPriceTableExpired e ||
        isPriceTableNotFound e || isSectorNotFound e then
      d
    else
      { d with consecutiveFailures := inc64 d.consecutiveFailures,
               estimateSamples := d.estimateSamples ++ [hourInMS] }

/-- C7: on success `consecutiveFailures` is reset and the estimator is
untouched; on a host-blameless error the whole state is untouched; on
any other error `consecutiveFailures` is incremented and one hour in
milliseconds is tracked into the estimator. -/
theorem trackFailure_spec (d : downloaderState)
    (hcf : d.consecutiveFailures + 1 < U64) :
    trackFailure d none = { d with consecutiveFailures := 0 } ∧
    (∀ e, (isBalanceInsufficient e || isPriceTableExpired e ||
            isPriceTableNotFound e || isSectorNotFound e) = true →
      trackFailure d (some e) = d) ∧
    (∀ e, (isBalanceInsufficient e || isPriceTableExpired e ||
            isPriceTableNotFound e || isSectorNotFound e) = false →
      trackFailure d (some e) =
        { d with consecutiveFailures := d.consecutiveFailures + 1,
                 estimateSamples := d.estimateSamples ++ [hourInMS] }) := by
  refine ⟨rfl, ?_, ?_⟩
  · intro e he
    simp [trackFailure, he]
  · intro e he
    simp [trackFailure, he, inc64, Nat.mod_eq_of_lt hcf]

/-- C7 witness: `trackFailure` evaluated on a fresh downloader for a
success, a blameless error and a blameworthy error. -/
theorem trackFailure_spec_witness :
    (0 : Nat) + 1 < U64 ∧
    trackFailure ⟨0, []⟩ none = ⟨0, []⟩ ∧
    trackFailure ⟨0, []⟩ (some .sectorNotFound) = ⟨0, []⟩ ∧
    trackFailure ⟨0, []⟩ (some (.other 0)) = ⟨1, [hourInMS]⟩ := by
  have h := trackFailure_spec ⟨0, []⟩ (by decide)
  exact ⟨by decide, h.1, h.2.1 .sectorNotFound (by decide), h.2.2 (.other 0) (by decide)⟩

/-- A response arriving on the slab download's response channel
(`sectorDownloadResp`). -/
structure sectorDownloadResp where
  overdrive : Bool
  hk : HostKey
  sectorIndex : Nat
  sector : Bytes
  err : Option DownloadErr
deriving DecidableEq, Repr

/-- The accounting state of a `slabDownload`, together with the two
configuration values `receive` reads: `minShards` from the slab slice
and `maxOverdrive` from the manager. -/
structure slabDownloadState where
  minShards : Nat
  maxOverdrive : Nat
  numCompleted : Nat
  numInflight : Nat
  numLaunched : Nat
  numOverdriving : Nat
  sectors : List Bytes
  errs : List HostError
deriving DecidableEq, Repr

/-- `slabDownload.receive`: decrement `numOverdriving` for overdrive
responses, decrement `numInflight`, then either collect the error and
return `(false, false)`, or store the sector at its shard index,
increment `numCompleted` and return the completion flags. The `uint64`
decrements wrap; `none` models the Go panic when `sectorIndex` is out of
range of the shard matrix. -/
def receive (s : slabDownloadState) (r : sectorDownloadResp) :
    Option (slabDownloadState × Bool × Bool) :=
  let s1 := if r.overdrive then { s with numOverdriving := dec64 s.numOverdriving } else s
  let s2 := { s1 with numInflight := dec64 s1.numInflight }
  match r.err with
  | some e => some ({ s2 with errs := s2.errs ++ [⟨r.hk, e⟩] }, false, false)
  | none =>
    if r.sectorIndex < s2.sectors.length then
      let s3 := { s2 with sectors := s2.sectors.set r.sectorIndex r.sector,
                          numCompleted := s2.numCompleted + 1 }
      some (s3, decide (s3.minShards ≤ s3.numCompleted),
                decide (s3.minShards ≤ s3.numCompleted + s3.maxOverdrive))
    else none

/-- The composite error built by `slabDownload.finish` on failure: the
counters, the manager's downloader count and every collected host
error. -/
structure slabDownloadErr where
  completed : Nat
  inflight : Nat
  launched : Nat
  downloaders : Nat
  errs : List HostError
deriving DecidableEq, Repr

/-- `slabDownload.finish`; `numDownloaders` is `mgr.numDownloaders()`
interpolated into the error. -/
def finish (s : slabDownloadState) (numDownloaders : Nat) :
    Except slabDownloadErr (List Bytes) :=
  if s.numCompleted < s.minShards then
    .error ⟨s.numCompleted, s.numInflight, s.numLaunched, numDownloaders, s.errs⟩
  else
    .ok s.sectors

/-- The state built by `newSlabDownload`: zero counters, a shard matrix
of `len(slice.Shards)` nil entries and no errors. -/
def initSlabDownload (minShards maxOverdrive numShards : Nat) : slabDownloadState :=
  { minShards := minShards, maxOverdrive := maxOverdrive,
    numCompleted := 0, numInflight := 0, numLaunched := 0, numOverdriving := 0,
    sectors := List.replicate numShards [], errs := [] }

/-- Fold of `receive` over the sequence of responses a slab download
processes, propagating a panic. -/
def runReceives (s : slabDownloadState) : List sectorDownloadResp → Option slabDownloadState
  | [] => some s
  | r :: rs =>
    match receive s r with
    | none => none
    | some (s1, _, _) => runReceives s1 rs

/-- C6: `receive` decrements `numInflight` (and `numOverdriving` exactly
for overdrive responses); an error response is appended to the error set
and yields `(done, next) = (false, false)`; a successful response stores
the sector at its shard index, increments `numCompleted`, and yields
`done = (numCompleted ≥ minShards)` and
`next = (numCompleted + maxOverdrive ≥ minShards)` on the updated
counter. -/
theorem receive_spec (s : slabDownloadState) (r : sectorDownloadResp)
    (hidx : r.err = none → r.sectorIndex < s.sectors.length) :
    ∃ s1 done next, receive s r = some (s1, done, next) ∧
      s1.numInflight = dec64 s.numInflight ∧
      s1.numLaunched = s.numLaunched ∧
      s1.minShards = s.minShards ∧
      (r.overdrive = true → s1.numOverdriving = dec64 s.numOverdriving) ∧
      (r.overdrive = false → s1.numOverdriving = s.numOverdriving) ∧
      (∀ e, r.err = some e →
        s1.errs = s.errs ++ [⟨r.hk, e⟩] ∧ done = false ∧ next = false ∧
        s1.sectors = s.sectors ∧ s1.numCompleted = s.numCompleted) ∧
      (r.err = none →
        s1.sectors = s.sectors.set r.sectorIndex r.sector ∧
        s1.numCompleted = s.numCompleted + 1 ∧
        s1.errs = s.errs ∧
        done = decide (s.minShards ≤ s.numCompleted + 1) ∧
        next = decide (s.minShards ≤ s.numCompleted + 1 + s.maxOverdrive)) := by
  cases hov : r.overdrive <;> rcases hre : r.err with _ | e
  · have h := hidx hre
    have hr : receive s r = some
        ({ s with numInflight := dec64 s.numInflight,
                  sectors := s.sectors.set r.sectorIndex r.sector,
                  numCompleted := s.numCompleted + 1 },
         decide (s.minShards ≤ s.numCompleted + 1),
         decide (s.minShards ≤ s.numCompleted + 1 + s.maxOverdrive)) := by
      simp [receive, hov, hre, h]
    exact ⟨_, _, _, hr, rfl, rfl, rfl, by simp [hov], fun _ => rfl,
      fun e he => by simp at he, fun _ => ⟨rfl, rfl, rfl, rfl, rfl⟩⟩
  · have hr : receive s r = some
        ({ s with numInflight := dec64 s.numInflight,
                  errs := s.errs ++ [⟨r.hk, e⟩] }, false, false) := by
      simp [receive, hov, hre]
    exact ⟨_, _, _, hr, rfl, rfl, rfl, by simp [hov], fun _ => rfl,
      fun e' he' => by cases he'; exact ⟨rfl, rfl, rfl, rfl, rfl⟩,
      fun hn => by simp [hre] at hn⟩
  · have h := hidx hre
    have hr : receive s r = some
        ({ s with numOverdriving := dec64 s.numOverdriving,
                  numInflight := dec64 s.numInflight,
                  sectors := s.sectors.set r.sectorIndex r.sector,
                  numCompleted := s.numCompleted + 1 },
         decide (s.minShards ≤ s.numCompleted + 1),
         decide (s.minShards ≤ s.numCompleted + 1 + s.maxOverdrive)) := by
      simp [receive, hov, hre, h]
    exact ⟨_, _, _, hr, rfl, rfl, rfl, fun _ => rfl, by simp [hov],
      fun e he => by simp at he, fun _ => ⟨rfl, rfl, rfl, rfl, rfl⟩⟩
  · have hr : receive s r = some
        ({ s with numOverdriving := dec64 s.numOverdriving,
                  numInflight := dec64 s.numInflight,
                  errs := s.errs ++ [⟨r.hk, e⟩] }, false, false) := by
      simp [receive, hov, hre]
    exact ⟨_, _, _, hr, rfl, rfl, rfl, fun _ => rfl, by simp [hov],
      fun e' he' => by cases he'; exact ⟨rfl, rfl, rfl, rfl, rfl⟩,
      fun hn => by simp [hre] at hn⟩

/-- C6 witness: a successful non-overdrive response at shard index 0 on
a one-shard slab with `minShards = 1` and five requests in flight. -/
theorem receive_spec_witness :
    ((⟨false, 9, 0, [42], none⟩ : sectorDownloadResp).err = none →
      (⟨false, 9, 0, [42], none⟩ : sectorDownloadResp).sectorIndex <
        (⟨1, 0, 0, 5, 7, 0, [[]], []⟩ : slabDownloadState).sectors.length) ∧
    (∃ s1 done next,
      receive ⟨1, 0, 0, 5, 7, 0, [[]], []⟩ ⟨false, 9, 0, [42], none⟩ = some (s1, done, next) ∧
      s1.numInflight = dec64 5 ∧
      s1.numLaunched = 7 ∧
      s1.minShards = 1 ∧
      (false = true → s1.numOverdriving = dec64 0) ∧
      (false = false → s1.numOverdriving = 0) ∧
      (∀ e, (none : Option DownloadErr) = some e →
        s1.errs = [] ++ [⟨9, e⟩] ∧ done = false ∧ next = false ∧
        s1.sectors = [[]] ∧ s1.numCompleted = 0) ∧
      ((none : Option DownloadErr) = none →
        s1.sectors = ([[]] : List Bytes).set 0 [42] ∧
        s1.numCompleted = 0 + 1 ∧
        s1.errs = [] ∧
        done = decide (1 ≤ 0 + 1) ∧
        next = decide (1 ≤ 0 + 1 + 0))) :=
  ⟨fun _ => by decide, receive_spec ⟨1, 0, 0, 5, 7, 0, [[]], []⟩ ⟨false, 9, 0, [42], none⟩
    (fun _ => by decide)⟩

theorem getD_set_self (l : List Bytes) (i : Nat) (v : Bytes) (h : i < l.length) :
    (l.set i v).getD i [] = v := by
  induction l generalizing i with
  | nil => simp at h
  | cons a t ih =>
    cases i with
    | zero => rfl
    | succ n =>
      simp only [List.set, List.getD_cons_succ]
      exact ih n (by simpa using h)

theorem getD_set_ne (l : List Bytes) (i j : Nat) (v : Bytes) (h : i ≠ j) :
    (l.set i v).getD j [] = l.getD j [] := by
  induction l generalizing i j with
  | nil => rfl
  | cons a t ih =>
    cases i with
    | zero =>
      cases j with
      | zero => exact absurd rfl h
      | succ m => rfl
    | succ n =>
      cases j with
      | zero => rfl
      | succ m =>
        simp only [List.set, List.getD_cons_succ]
        exact ih n m (by omega)

theorem getD_replicate_empty (n i : Nat) :
    (List.replicate n ([] : Bytes)).getD i [] = [] := by
  induction n generalizing i with
  | zero => rfl
  | succ m ih =>
    cases i with
    | zero => rfl
    | succ k =>
      simp only [List.replicate, List.getD_cons_succ]
      exact ih k

theorem countP_replicate_empty (n : Nat) :
    (List.replicate n ([] : Bytes)).countP (fun b => !b.isEmpty) = 0 := by
  induction n with
  | zero => rfl
  | succ m ih => simp [List.replicate, List.countP_cons, ih]

theorem countP_set_fresh (l : List Bytes) (i : Nat) (v : Bytes) (h : i < l.length)
    (hold : l.getD i [] = []) (hv : v ≠ []) :
    (l.set i v).countP (fun b => !b.isEmpty) = l.countP (fun b => !b.isEmpty) + 1 := by
  induction l generalizing i with
  | nil => simp at h
  | cons a t ih =>
    cases i with
    | zero =>
      have ha : a = [] := hold
      subst ha
      simp [List.set, List.countP_cons, hv]
    | succ n =>
      simp only [List.set, List.countP_cons]
      rw [ih n (by simpa using h) (by simpa using hold)]
      omega

/-- Case analysis of `receive` on the fields the finish invariant needs. -/
theorem receive_cases (s : slabDownloadState) (r : sectorDownloadResp)
    (st : slabDownloadState) (d n : Bool)
    (h : receive s r = some (st, d, n)) :
    st.minShards = s.minShards ∧
    ((∃ e, r.err = some e ∧ st.sectors = s.sectors ∧ st.numCompleted = s.numCompleted ∧
        st.errs = s.errs ++ [⟨r.hk, e⟩]) ∨
     (r.err = none ∧ r.sectorIndex < s.sectors.length ∧
        st.sectors = s.sectors.set r.sectorIndex r.sector ∧
        st.numCompleted = s.numCompleted + 1 ∧ st.errs = s.errs)) := by
  cases hov : r.overdrive <;> rcases hre : r.err with _ | e <;>
      simp only [receive, hov, hre, Bool.false_eq_true, if_true, if_false,
        ite_true, ite_false] at h
  · split at h
    · next hlt =>
      simp only [Option.some.injEq, Prod.mk.injEq] at h
      obtain ⟨hst, -, -⟩ := h
      subst hst
      exact ⟨rfl, Or.inr ⟨rfl, hlt, rfl, rfl, rfl⟩⟩
    · exact absurd h (by simp)
  · simp only [Option.some.injEq, Prod.mk.injEq] at h
    obtain ⟨hst, -, -⟩ := h
    subst hst
    exact ⟨rfl, Or.inl ⟨e, rfl, rfl, rfl, rfl⟩⟩
  · split at h
    · next hlt =>
      simp only [Option.some.injEq, Prod.mk.injEq] at h
      obtain ⟨hst, -, -⟩ := h
      subst hst
      exact ⟨rfl, Or.inr ⟨rfl, hlt, rfl, rfl, rfl⟩⟩
    · exact absurd h (by simp)
  · simp only [Option.some.injEq, Prod.mk.injEq] at h
    obtain ⟨hst, -, -⟩ := h
    subst hst
    exact ⟨rfl, Or.inl ⟨e, rfl, rfl, rfl, rfl⟩⟩

/-- Trace invariant of a slab download: folding `receive` over a
response sequence with pairwise-distinct successful shard indices keeps
`numCompleted` equal to the number of non-empty shard-matrix entries,
collects exactly the per-host errors, and stores every successful sector
at the shard index carried by its response. -/
theorem runReceives_inv :
    ∀ (resps : List sectorDownloadResp) (s s' : slabDownloadState),
      runReceives s resps = some s' →
      (∀ r ∈ resps, r.err = none → r.sector ≠ []) →
      resps.Pairwise
        (fun a b => a.err = none → b.err = none → a.sectorIndex ≠ b.sectorIndex) →
      (∀ r ∈ resps, r.err = none → s.sectors.getD r.sectorIndex [] = []) →
      s.numCompleted = s.sectors.countP (fun b => !b.isEmpty) →
      s'.minShards = s.minShards ∧
      s'.sectors.length = s.sectors.length ∧
      s'.numCompleted = s'.sectors.countP (fun b => !b.isEmpty) ∧
      s'.errs = s.errs ++ resps.filterMap (fun r => r.err.map (fun e => HostError.mk r.hk e)) ∧
      (∀ r ∈ resps, r.err = none → s'.sectors.getD r.sectorIndex [] = r.sector) ∧
      (∀ i, (∀ r ∈ resps, r.err = none → r.sectorIndex ≠ i) →
        s'.sectors.getD i [] = s.sectors.getD i []) := by
  intro resps
  induction resps with
  | nil =>
    intro s s' hrun hsec hdisj hfresh hcnt
    simp only [runReceives, Option.some.injEq] at hrun
    subst hrun
    exact ⟨rfl, rfl, hcnt, by simp, by simp, fun i _ => rfl⟩
  | cons r rs ih =>
    intro s s' hrun hsec hdisj hfresh hcnt
    rw [List.pairwise_cons] at hdisj
    obtain ⟨hrel, hdisj'⟩ := hdisj
    simp only [runReceives] at hrun
    rcases hrec : receive s r with _ | ⟨st, d, n⟩
    · rw [hrec] at hrun
      exact absurd hrun (by simp)
    · rw [hrec] at hrun
      obtain ⟨hms, hcase⟩ := receive_cases s r st d n hrec
      rcases hcase with ⟨e, hre, hsecs, hnc, herrs⟩ | ⟨hre, hlt, hsecs, hnc, herrs⟩
      · have ih' := ih st s' hrun
          (fun r' h' => hsec r' (List.mem_cons_of_mem _ h'))
          hdisj'
          (fun r' h' he' => by rw [hsecs]; exact hfresh r' (List.mem_cons_of_mem _ h') he')
          (by rw [hnc, hsecs]; exact hcnt)
        obtain ⟨i1, i2, i3, i4, i5, i6⟩ := ih'
        refine ⟨i1.trans hms, by rw [i2, hsecs], i3, ?_, ?_, ?_⟩
        · rw [i4, herrs, List.filterMap_cons, hre]
          simp
        · intro r' h' he'
          rcases List.mem_cons.mp h' with h' | h'
          · subst h'
            rw [hre] at he'
            exact absurd he' (by simp)
          · exact i5 r' h' he'
        · intro i hi
          rw [i6 i (fun r' h' he' => hi r' (List.mem_cons_of_mem _ h') he'), hsecs]
      · have hfr : s.sectors.getD r.sectorIndex [] = [] :=
          hfresh r (List.mem_cons_self _ _) hre
        have hsv : r.sector ≠ [] := hsec r (List.mem_cons_self _ _) hre
        have ih' := ih st s' hrun
          (fun r' h' => hsec r' (List.mem_cons_of_mem _ h'))
          hdisj'
          (fun r' h' he' => by
            rw [hsecs, getD_set_ne _ _ _ _ (hrel r' h' hre he')]
            exact hfresh r' (List.mem_cons_of_mem _ h') he')
          (by
            rw [hnc, hsecs, countP_set_fresh _ _ _ hlt hfr hsv, hcnt])
        obtain ⟨i1, i2, i3, i4, i5, i6⟩ := ih'
        refine ⟨i1.trans hms, by rw [i2, hsecs, List.length_set], i3, ?_, ?_, ?_⟩
        · rw [i4, herrs, List.filterMap_cons, hre]
          simp
        · intro r' h' he'
          rcases List.mem_cons.mp h' with h' | h'
          · subst h'
            rw [i6 r'.sectorIndex (fun x hx hex => (hrel x hx hre hex).symm), hsecs,
              getD_set_self _ _ _ hlt]
          · exact i5 r' h' he'
        · intro i hi
          have hri : r.sectorIndex ≠ i := hi r (List.mem_cons_self _ _) hre
          rw [i6 i (fun r' h' he' => hi r' (List.mem_cons_of_mem _ h') he'), hsecs,
            getD_set_ne _ _ _ _ hri]

/-- C1: for a slab download whose `receive` trace has
pairwise-distinct successful shard indices and non-empty sector
payloads, a successful `finish` implies `numCompleted ≥ minShards` and
returns the shard matrix with exactly `numCompleted` non-empty entries,
each successful sector stored at the shard index carried by its
response; when `numCompleted < minShards`, `finish` returns the
composite error carrying every collected per-host error together with
the counters `numCompleted`, `numInflight` and `numLaunched`. -/
theorem slabDownload_finish_spec (minShards maxOv numShards numDownloaders : Nat)
    (resps : List sectorDownloadResp) (s' : slabDownloadState)
    (hrun : runReceives (initSlabDownload minShards maxOv numShards) resps = some s')
    (hsec : ∀ r ∈ resps, r.err = none → r.sector ≠ [])
    (hdisj : resps.Pairwise
      (fun a b => a.err = none → b.err = none → a.sectorIndex ≠ b.sectorIndex)) :
    (∀ m, finish s' numDownloaders = .ok m →
        minShards ≤ s'.numCompleted ∧
        m.countP (fun b => !b.isEmpty) = s'.numCompleted ∧
        (∀ r ∈ resps, r.err = none → m.getD r.sectorIndex [] = r.sector)) ∧
    (s'.numCompleted < minShards →
        finish s' numDownloaders =
          .error ⟨s'.numCompleted, s'.numInflight, s'.numLaunched, numDownloaders,
            resps.filterMap (fun r => r.err.map (fun e => HostError.mk r.hk e))⟩) := by
  have inv := runReceives_inv resps (initSlabDownload minShards maxOv numShards) s' hrun hsec
    hdisj
    (fun r _ _ => getD_replicate_empty numShards r.sectorIndex)
    (countP_replicate_empty numShards).symm
  obtain ⟨i1, -, i3, i4, i5, -⟩ := inv
  have hms : s'.minShards = minShards := i1
  have herrs : s'.errs =
      resps.filterMap (fun r => r.err.map (fun e => HostError.mk r.hk e)) := by
    rw [i4]
    rfl
  constructor
  · intro m hok
    unfold finish at hok
    split at hok
    · exact absurd hok (by simp)
    · next hge =>
      simp only [Except.ok.injEq] at hok
      subst hok
      rw [hms] at hge
      exact ⟨Nat.le_of_not_lt hge, i3.symm, i5⟩
  · intro hlt
    unfold finish
    rw [if_pos (by rw [hms]; exact hlt), herrs]

/-- C1 witness: one successful response at shard index 1 on a two-shard
slab with `minShards = 1` completes the slab. -/
theorem slabDownload_finish_spec_witness :
    runReceives (initSlabDownload 1 0 2) [⟨false, 7, 1, [9], none⟩] =
      some ⟨1, 0, 1, U64 - 1, 0, 0, [[], [9]], []⟩ ∧
    (∀ r ∈ [(⟨false, 7, 1, [9], none⟩ : sectorDownloadResp)], r.err = none → r.sector ≠ []) ∧
    ((∀ m, finish (⟨1, 0, 1, U64 - 1, 0, 0, [[], [9]], []⟩ : slabDownloadState) 3 = .ok m →
        1 ≤ (⟨1, 0, 1, U64 - 1, 0, 0, [[], [9]], []⟩ : slabDownloadState).numCompleted ∧
        m.countP (fun b => !b.isEmpty) =
          (⟨1, 0, 1, U64 - 1, 0, 0, [[], [9]], []⟩ : slabDownloadState).numCompleted ∧
        (∀ r ∈ [(⟨false, 7, 1, [9], none⟩ : sectorDownloadResp)], r.err = none →
          m.getD r.sectorIndex [] = r.sector)) ∧
      ((⟨1, 0, 1, U64 - 1, 0, 0, [[], [9]], []⟩ : slabDownloadState).numCompleted < 1 →
        finish (⟨1, 0, 1, U64 - 1, 0, 0, [[], [9]], []⟩ : slabDownloadState) 3 =
          .error ⟨(⟨1, 0, 1, U64 - 1, 0, 0, [[], [9]], []⟩ : slabDownloadState).numCompleted,
            (⟨1, 0, 1, U64 - 1, 0, 0, [[], [9]], []⟩ : slabDownloadState).numInflight,
            (⟨1, 0, 1, U64 - 1, 0, 0, [[], [9]], []⟩ : slabDownloadState).numLaunched, 3,
            ([(⟨false, 7, 1, [9], none⟩ : sectorDownloadResp)]).filterMap
              (fun r => r.err.map (fun e => HostError.mk r.hk e))⟩)) :=
  ⟨by decide, by decide,
    slabDownload_finish_spec 1 0 2 3 [⟨false, 7, 1, [9], none⟩]
      ⟨1, 0, 1, U64 - 1, 0, 0, [[], [9]], []⟩ (by decide) (by decide) (by simp)⟩

/-- A sector download request (`sectorDownloadReq`): the fields routing
and accounting read. -/
structure sectorDownloadReq where
  hk : HostKey
  root : Nat
  offset : Nat
  length : Nat
  overdrive : Bool
  sectorIndex : Nat
deriving DecidableEq, Repr

/-- The manager's `downloaders` map with each downloader's queue,
modelled as an association list. -/
abbrev DownloaderMap := List (HostKey × List sectorDownloadReq)

/-- `downloadManager.launch`: resolve `downloaders[req.hk]`; when absent
return the no-downloader error (`none`), otherwise `enqueue` appends the
request to that downloader's queue. -/
def managerLaunch : DownloaderMap → sectorDownloadReq → Option DownloaderMap
  | [], _ => none
  | (k, q) :: rest, req =>
    if k = req.hk then some ((k, q ++ [req]) :: rest)
    else (managerLaunch rest req).map (fun m => (k, q) :: m)

/-- Errors returned by `slabDownload.launch`. -/
inductive LaunchErr where
  | noRequestGiven
  | noDownloader
deriving DecidableEq, Repr

/-- `slabDownload.launch`: reject a nil request, route through the
manager, and only on success increment `numInflight`, `numLaunched` and
(for overdrive requests) `numOverdriving`. -/
def launch (s : slabDownloadState) (m : DownloaderMap) (req : Option sectorDownloadReq) :
    slabDownloadState × DownloaderMap × Option LaunchErr :=
  match req with
  | none => (s, m, some .noRequestGiven)
  | some req =>
    match managerLaunch m req with
    | none => (s, m, some .noDownloader)
    | some m1 =>
      ({ s with numInflight := inc64 s.numInflight,
                numLaunched := inc64 s.numLaunched,
                numOverdriving := if req.overdrive then inc64 s.numOverdriving
                                  else s.numOverdriving }, m1, none)

theorem managerLaunch_none (m : DownloaderMap) (req : sectorDownloadReq)
    (h : ∀ q, (req.hk, q) ∉ m) : managerLaunch m req = none := by
  induction m with
  | nil => rfl
  | cons p rest ih =>
    obtain ⟨k, q⟩ := p
    by_cases hk : k = req.hk
    · subst hk
      exact absurd (List.mem_cons_self _ _) (h q)
    · simp only [managerLaunch, if_neg hk]
      rw [ih (fun q' hq' => h q' (List.mem_cons_of_mem _ hq'))]
      rfl

theorem managerLaunch_some (m : DownloaderMap) (req : sectorDownloadReq)
    (h : ∃ q, (req.hk, q) ∈ m) :
    ∃ pre q post, m = pre ++ (req.hk, q) :: post ∧
      managerLaunch m req = some (pre ++ (req.hk, q ++ [req]) :: post) := by
  induction m with
  | nil => simp at h
  | cons p rest ih =>
    obtain ⟨k, q0⟩ := p
    by_cases hk : k = req.hk
    · subst hk
      exact ⟨[], q0, rest, rfl, by simp [managerLaunch]⟩
    · obtain ⟨q, hq⟩ := h
      rcases List.mem_cons.mp hq with hq | hq
      · exact absurd (congrArg Prod.fst hq).symm hk
      · obtain ⟨pre, q1, post, hsplit, hml⟩ := ih ⟨q, hq⟩
        refine ⟨(k, q0) :: pre, q1, post, by rw [hsplit]; rfl, ?_⟩
        simp only [managerLaunch, if_neg hk, hml]
        rfl

/-- C10: `launch` on a nil request or on a host with no registered
downloader returns an error and leaves the counters and queues
untouched; when a downloader for the request's host exists, the request
is appended to that downloader's queue and `numInflight`, `numLaunched`
and (only for overdrive requests) `numOverdriving` are incremented. -/
theorem launch_spec (s : slabDownloadState) (m : DownloaderMap) :
    launch s m none = (s, m, some .noRequestGiven) ∧
    (∀ req, (∀ q, (req.hk, q) ∉ m) →
      launch s m (some req) = (s, m, some .noDownloader)) ∧
    (∀ req, (∃ q, (req.hk, q) ∈ m) →
      ∃ pre q post, m = pre ++ (req.hk, q) :: post ∧
        launch s m (some req) =
          ({ s with numInflight := inc64 s.numInflight,
                    numLaunched := inc64 s.numLaunched,
                    numOverdriving := if req.overdrive then inc64 s.numOverdriving
                                      else s.numOverdriving },
           pre ++ (req.hk, q ++ [req]) :: post, none)) := by
  refine ⟨rfl, ?_, ?_⟩
  · intro req h
    simp [launch, managerLaunch_none m req h]
  · intro req h
    obtain ⟨pre, q, post, hsplit, hml⟩ := managerLaunch_some m req h
    exact ⟨pre, q, post, hsplit, by simp [launch, hml]⟩

/-- C10 witness: `launch` with one registered downloader for host 3 and
a non-overdrive request for that host. -/
theorem launch_spec_witness :
    ((3 : HostKey), ([] : List sectorDownloadReq)) ∈
      ([(3, [])] : DownloaderMap) ∧
    (∃ pre q post, ([(3, [])] : DownloaderMap) = pre ++ ((3 : HostKey), q) :: post ∧
      launch (initSlabDownload 1 0 1) [(3, [])] (some ⟨3, 0, 0, 0, false, 0⟩) =
        ({ initSlabDownload 1 0 1 with
            numInflight := inc64 (initSlabDownload 1 0 1).numInflight,
            numLaunched := inc64 (initSlabDownload 1 0 1).numLaunched,
            numOverdriving :=
              if (⟨3, 0, 0, 0, false, 0⟩ : sectorDownloadReq).overdrive then
                inc64 (initSlabDownload 1 0 1).numOverdriving
              else (initSlabDownload 1 0 1).numOverdriving },
         pre ++ ((3 : HostKey), q ++ [⟨3, 0, 0, 0, false, 0⟩]) :: post, none)) :=
  ⟨by decide,
    (launch_spec (initSlabDownload 1 0 1) [(3, [])]).2.2 ⟨3, 0, 0, 0, false, 0⟩
      ⟨[], by decide⟩⟩

/-- Go's `close` on a channel, acting on its closed flag: closing an
already-closed channel panics (modelled as `none`). -/
def closeChan (closed : Bool) : Option Bool :=
  if closed then none else some true

/-- Closing every downloader's stop channel in turn, as the loop in
`downloadManager.Stop` does. -/
def closeAll : List Bool → Option (List Bool)
  | [] => some []
  | c :: rest =>
    match closeChan c, closeAll rest with
    | some c1, some rest1 => some (c1 :: rest1)
    | _, _ => none

/-- The stop-relevant state of the download manager: the closed flag of
its `stopChan` and of every downloader's `stopChan`. -/
structure managerStopState where
  stopChan : Bool
  downloaderStopChans : List Bool
deriving DecidableEq, Repr

/-- `downloadManager.Stop`: close the manager's stop channel and every
downloader's stop channel; `none` models the close-of-closed-channel
panic. -/
def Stop (m : managerStopState) : Option managerStopState :=
  match closeChan m.stopChan, closeAll m.downloaderStopChans with
  | some c, some ds => some ⟨c, ds⟩
  | _, _ => none

/-- C9 counterexample: the first `Stop` closes all stop signals, and a
second `Stop` on the resulting state panics (close of closed channel)
instead of succeeding, so `Stop` is not idempotent. -/
theorem stop_idempotent_counterexample :
    Stop ⟨false, [false]⟩ = some ⟨true, [true]⟩ ∧
    Stop ⟨true, [true]⟩ = none := by
  exact ⟨by decide, by decide⟩

theorem closeAll_all_open (l : List Bool) (h : ∀ c ∈ l, c = false) :
    closeAll l = some (List.replicate l.length true) := by
  induction l with
  | nil => rfl
  | cons c rest ih =>
    have hc : c = false := h c (List.mem_cons_self _ _)
    subst hc
    rw [List.length_cons, List.replicate_succ]
    simp only [closeAll, closeChan, if_false, Bool.false_eq_true, ite_false,
      ih (fun c' hc' => h c' (List.mem_cons_of_mem _ hc'))]

/-- C9 (amended): a first `Stop` on a manager whose stop signals are all
open succeeds and closes the manager's and every downloader's stop
signal; a second `Stop` on the stopped state panics closing the
already-closed channel, so `Stop` is not idempotent. -/
theorem stop_closes_all (m : managerStopState)
    (h1 : m.stopChan = false) (h2 : ∀ c ∈ m.downloaderStopChans, c = false) :
    ∃ m1, Stop m = some m1 ∧ m1.stopChan = true ∧
      (∀ c ∈ m1.downloaderStopChans, c = true) ∧
      m1.downloaderStopChans.length = m.downloaderStopChans.length ∧
      Stop m1 = none := by
  refine ⟨⟨true, List.replicate m.downloaderStopChans.length true⟩, ?_, rfl, ?_, ?_, ?_⟩
  · rw [Stop, h1, closeAll_all_open _ h2]
    rfl
  · intro c hc
    exact (List.eq_of_mem_replicate hc)
  · exact List.length_replicate _ _
  · rw [Stop]
    rfl

/-- C9 amended-claim witness: a manager with two downloaders, all stop
signals open. -/
theorem stop_closes_all_witness :
    (⟨false, [false, false]⟩ : managerStopState).stopChan = false ∧
    (∀ c ∈ (⟨false, [false, false]⟩ : managerStopState).downloaderStopChans, c = false) ∧
    (∃ m1, Stop ⟨false, [false, false]⟩ = some m1 ∧ m1.stopChan = true ∧
      (∀ c ∈ m1.downloaderStopChans, c = true) ∧
      m1.downloaderStopChans.length =
        (⟨false, [false, false]⟩ : managerStopState).downloaderStopChans.length ∧
      Stop m1 = none) :=
  ⟨rfl, by decide, stop_closes_all ⟨false, [false, false]⟩ rfl (by decide)⟩

end Renterd
